import Mathlib

/-!
Verification of the from-scratch MNIST feedforward network
(`src/assignments/mp1/src/mnist.py`, class `NeuralNetwork`).

Matrices are embedded as functions `Fin m → Fin n → ℝ` (numpy `float64`
arrays modelled over the reals), and every operation below is translated
directly from the corresponding method of `NeuralNetwork`.
-/

noncomputable section

namespace Mnist

/-- A dense `m × n` real matrix, the embedding of a 2-d numpy array. -/
abbrev Mat (m n : ℕ) : Type := Fin m → Fin n → ℝ

/-- `A.dot(B)` for a `l × m` and an `m × n` array. -/
def matMul {l m n : ℕ} (A : Mat l m) (B : Mat m n) : Mat l n :=
  fun i j => ∑ k, A i k * B k j

/-- `A.T`, numpy transpose. -/
def matT {m n : ℕ} (A : Mat m n) : Mat n m :=
  fun i j => A j i

/-- `add_bias_unit(X, column=True)` (mnist.py lines 111-122): a fresh array of
ones with `X` copied into columns `1..`. -/
def addBiasCol {m f : ℕ} (X : Mat m f) : Mat m (f + 1) :=
  fun i j => Fin.cases 1 (fun j' => X i j') j

/-- `add_bias_unit(X, column=False)`: a fresh array of ones with `X` copied
into rows `1..`. -/
def addBiasRow {h m : ℕ} (Z : Mat h m) : Mat (h + 1) m :=
  fun i j => Fin.cases 1 (fun i' => Z i' j) i

/-- `relu(z)` (mnist.py lines 101-105): `relud[relud < 0] = 0`, i.e. strictly
negative entries are clamped to 0.  In the source this mutates the argument
array in place; the embedding returns the resulting array, and call sites
that observe the mutated argument (namely `forward`) use this returned value
for it. -/
def relu {m n : ℕ} (z : Mat m n) : Mat m n :=
  fun i j => if z i j < 0 then 0 else z i j

/-- `relu(z, deriv=True)` (mnist.py lines 106-109): entries `≤ 0` become 0,
entries `> 0` become 1. -/
def reluDeriv {m n : ℕ} (z : Mat m n) : Mat m n :=
  fun i j => if z i j ≤ 0 then 0 else 1

/-- All entries of a matrix as a list (row-major), the set `np.max` reduces
over. -/
def entriesList {m n : ℕ} (v : Mat m n) : List ℝ :=
  (List.finRange m).flatMap fun i => (List.finRange n).map fun j => v i j

/-- Maximum of a list of reals; `0` on the empty list (where `np.max` would
raise instead — every use below has nonempty input). -/
def listMax0 : List ℝ → ℝ
  | [] => 0
  | x :: xs => xs.foldl max x

/-- `np.max(v)` with no axis argument: the maximum over ALL entries of the
matrix (not a per-column maximum). -/
def matMax {m n : ℕ} (v : Mat m n) : ℝ :=
  listMax0 (entriesList v)

/-- The array `v + logC` that `softmax` exponentiates, with
`logC = -np.max(v)` (mnist.py line 93): the single global maximum of `v` is
subtracted from every entry. -/
def softmaxShift {m n : ℕ} (v : Mat m n) : Mat m n :=
  fun i j => v i j + -matMax v

/-- `softmax(v)` (mnist.py lines 87-94):
`np.exp(v + logC) / np.sum(np.exp(v + logC), axis=0)` — each column is
normalised by its own sum, but the shift `logC` is the global one. -/
def softmax {m n : ℕ} (v : Mat m n) : Mat m n :=
  fun i j => Real.exp (softmaxShift v i j) / ∑ k, Real.exp (softmaxShift v k j)

/-- `forward(X, w1, w2)` (mnist.py lines 125-152).  Note that
`a2 = self.relu(z2)` mutates `z2` in place, so the `z2` the method returns is
the rectified array, and `a2` is the bias-extended rectified array. -/
def forward {m f h c : ℕ} (X : Mat m f) (w1 : Mat h (f + 1)) (w2 : Mat c (h + 1)) :
    Mat m (f + 1) × Mat h m × Mat (h + 1) m × Mat c m × Mat c m :=
  let a1 := addBiasCol X
  let z2 := matMul w1 (matT a1)
  let z2r := relu z2
  let a2 := addBiasRow z2r
  let z3 := matMul w2 a2
  let a3 := softmax z3
  (a1, z2r, a2, z3, a3)

/-- The cross-entropy part of `get_cost` (mnist.py line 164):
`- np.sum(y_enc * np.log(output))`. -/
def crossEntropyTerm {c m : ℕ} (yEnc output : Mat c m) : ℝ :=
  -∑ i, ∑ j, yEnc i j * Real.log (output i j)

/-- The regularization part of `get_cost` (mnist.py line 167):
`(l2 / 2) * (np.sum(np.square(w1[:, 1:])) + np.sum(np.square(w2[:, 1:])))` —
bias columns (column 0) excluded. -/
def l2Term {h f c : ℕ} (l2 : ℝ) (w1 : Mat h (f + 1)) (w2 : Mat c (h + 1)) : ℝ :=
  l2 / 2 * ((∑ i, ∑ j : Fin f, w1 i j.succ ^ 2) + ∑ i, ∑ j : Fin h, w2 i j.succ ^ 2)

/-- `get_cost(y_enc, output, w1, w2)` (mnist.py lines 154-169):
`cost = CE; cost = cost + l2_term; return cost / y_enc.shape[1]`. -/
def get_cost {c m h f : ℕ} (l2 : ℝ) (yEnc output : Mat c m)
    (w1 : Mat h (f + 1)) (w2 : Mat c (h + 1)) : ℝ :=
  (crossEntropyTerm yEnc output + l2Term l2 w1 w2) / m

/-- `backprop(a1, a2, a3, z2, y_enc, w1, w2)` (mnist.py lines 171-200),
returning `(grad1, grad2)`. -/
def backprop {m f h c : ℕ} (l2 : ℝ) (a1 : Mat m (f + 1)) (a2 : Mat (h + 1) m)
    (a3 : Mat c m) (z2 : Mat h m) (yEnc : Mat c m)
    (w1 : Mat h (f + 1)) (w2 : Mat c (h + 1)) : Mat h (f + 1) × Mat c (h + 1) :=
  let sigma3 : Mat c m := a3 - yEnc
  let z2b := addBiasRow z2
  let sigma2full : Mat (h + 1) m := fun i j => matMul (matT w2) sigma3 i j * reluDeriv z2b i j
  let sigma2 : Mat h m := fun i j => sigma2full i.succ j
  let grad1 := matMul sigma2 a1
  let grad2 := matMul sigma3 (matT a2)
  let grad1r : Mat h (f + 1) := fun i j => grad1 i j + if j = 0 then 0 else l2 * w1 i j
  let grad2r : Mat c (h + 1) := fun i j => grad2 i j + if j = 0 then 0 else l2 * w2 i j
  (grad1r, grad2r)

/-- Write a single entry of a matrix (`onehot[r, c] = v`). -/
def setEntry {c n : ℕ} (M : Mat c n) (r : Fin c) (col : Fin n) (v : ℝ) : Mat c n :=
  fun i j => if i = r ∧ j = col then v else M i j

/-- One iteration of the loop in `encode_labels` (mnist.py lines 83-84):
`onehot[y[i], i] = 1.0`.  A label `≥ num_labels` is a numpy `IndexError`,
embedded as `none` (labels are naturals, so there is no negative-index
wraparound to model). -/
def encodeStep {n : ℕ} (y : Fin n → ℕ) (c : ℕ) (M : Mat c n) (i : Fin n) : Option (Mat c n) :=
  if h : y i < c then some (setEntry M ⟨y i, h⟩ i 1) else none

/-- `encode_labels(y, num_labels)` (mnist.py lines 78-85): start from
`np.zeros((num_labels, N))` and set `onehot[y[i], i] = 1.0` for each `i`. -/
def encode_labels {n : ℕ} (y : Fin n → ℕ) (c : ℕ) : Option (Mat c n) :=
  (List.finRange n).foldlM (encodeStep y c) (fun _ _ => 0)

/-- `np.argmax` over one column: index of the FIRST occurrence of the maximal
entry (numpy tie-breaking). -/
def argmaxCol {c : ℕ} [NeZero c] (f : Fin c → ℝ) : Fin c :=
  (List.finRange c).foldl (fun best i => if f best < f i then i else best)
    ⟨0, Nat.pos_of_ne_zero (NeZero.ne c)⟩

/-- `predict(X)` (mnist.py lines 215-223): forward pass with the stored
weights, then `np.argmax(a3, axis=0)`. -/
def predict {m f h c : ℕ} [NeZero c] (X : Mat m f)
    (w1 : Mat h (f + 1)) (w2 : Mat c (h + 1)) : Fin m → Fin c :=
  fun s => argmaxCol fun k => (forward X w1 w2).2.2.2.2 k s

/-- Number of positions where the prediction agrees with the label. -/
def matchCount {m c : ℕ} (pred : Fin m → Fin c) (y : Fin m → ℕ) : ℕ :=
  (Finset.univ.filter fun i => (pred i : ℕ) = y i).card

/-- `accuracy(X, y)` (mnist.py lines 202-212): `diffs = predict(X) - y`,
count the nonzero entries, return `100 - count * 100 / N`. -/
def accuracy {m f h c : ℕ} [NeZero c] (X : Mat m f) (y : Fin m → ℕ)
    (w1 : Mat h (f + 1)) (w2 : Mat c (h + 1)) : ℝ :=
  100 - ((Finset.univ.filter fun i => (predict X w1 w2 i : ℕ) ≠ y i).card : ℝ) * 100 / m

/-- The stored learning rate in effect during epoch `i` (0-based):
`fit` executes `self.learning_rate /= (1 + self.decay_rate * i)` at the top
of epoch `i` (mnist.py line 250) and never resets it, so each epoch divides
the value left over from the previous one. -/
def lrAt (lr0 dr : ℝ) : ℕ → ℝ
  | 0 => lr0 / (1 + dr * (0 : ℕ))
  | i + 1 => lrAt lr0 dr i / (1 + dr * ((i : ℕ) + 1 : ℕ))

/-- The mutable training state threaded through the minibatch loop of `fit`:
the two weight matrices and the saved previous-step updates
`prev_grad_w1`, `prev_grad_w2` (mnist.py lines 238-240, 267-275). -/
structure FitState (f h c : ℕ) where
  w1 : Mat h (f + 1)
  w2 : Mat c (h + 1)
  prev1 : Mat h (f + 1)
  prev2 : Mat c (h + 1)

/-- The gradients the minibatch loop computes from the current weights
(mnist.py lines 258, 263): `forward` then `backprop` on its outputs — with
`z2` being the array `forward` returned, i.e. the rectified one. -/
def gradsOf {m f h c : ℕ} (l2 : ℝ) (Xb : Mat m f) (yb : Mat c m)
    (w1 : Mat h (f + 1)) (w2 : Mat c (h + 1)) : Mat h (f + 1) × Mat c (h + 1) :=
  let r := forward Xb w1 w2
  backprop l2 r.1 r.2.2.1 r.2.2.2.2 r.2.1 yb w1 w2

/-- One minibatch step of `fit` (mnist.py lines 256-275):
`w1_update = learning_rate * grad1`; `self.w1 += -(w1_update + prev_grad_w1)`;
`prev_grad_w1 = w1_update` (and likewise for `w2`). -/
def fitBatchStep {m f h c : ℕ} (l2 lr : ℝ) (Xb : Mat m f) (yb : Mat c m)
    (s : FitState f h c) : FitState f h c :=
  let g := gradsOf l2 Xb yb s.w1 s.w2
  { w1 := s.w1 - (lr • g.1 + s.prev1)
    w2 := s.w2 - (lr • g.2 + s.prev2)
    prev1 := lr • g.1
    prev2 := lr • g.2 }

/-- The state entering the very first minibatch step: the current weights and
zero previous-step updates (`prev_grad_w1 = np.zeros(...)`, mnist.py
lines 239-240). -/
def fitInit {f h c : ℕ} (w1 : Mat h (f + 1)) (w2 : Mat c (h + 1)) : FitState f h c :=
  ⟨w1, w2, 0, 0⟩

/-- The inner `for idx in mini:` loop of `fit` over a list of minibatches
(batch inputs paired with their one-hot label slices). -/
def runBatches {m f h c : ℕ} (l2 lr : ℝ) (bs : List (Mat m f × Mat c m))
    (s : FitState f h c) : FitState f h c :=
  bs.foldl (fun s b => fitBatchStep l2 lr b.1 b.2 s) s

/-- The training state after the first `n` minibatch steps of an epoch,
starting from freshly zeroed previous-step updates. -/
def stateAfter {m f h c : ℕ} (l2 lr : ℝ) (bs : List (Mat m f × Mat c m))
    (w1 : Mat h (f + 1)) (w2 : Mat c (h + 1)) (n : ℕ) : FitState f h c :=
  runBatches l2 lr (bs.take n) (fitInit w1 w2)

/-- The activation names the constructor accepts (mnist.py line 56). -/
def supported_activations : List String := ["relu", "tanh", "sigmoid"]

/-- The `self.activation` attribute after construction (mnist.py
lines 56-61): set only when the requested name is supported; otherwise a
message is printed and the attribute is left unset (`none`).  Construction
itself completes either way. -/
def initActivation (requested : String) : Option String :=
  if requested ∈ supported_activations then some requested else none

/-- A forward pass as dispatched on a constructed instance.  The source's
`forward` (mnist.py lines 125-152) references only `self.relu`,
`self.add_bias_unit` and `self.softmax` — class attributes that always
exist — and never reads `self.activation`, so no attribute/lookup error can
arise regardless of the constructor's activation argument; the pass
unconditionally computes the relu network. -/
def instanceForward {m f h c : ℕ} (_act : Option String) (X : Mat m f)
    (w1 : Mat h (f + 1)) (w2 : Mat c (h + 1)) :
    Except String (Mat m (f + 1) × Mat h m × Mat (h + 1) m × Mat c m × Mat c m) :=
  Except.ok (forward X w1 w2)

/-- The cost as claim C1 states it: the cross-entropy term averaged over the
M samples plus the L2 term added raw, NOT divided by M.  This follows the
claim's words only, for comparison with the source's `get_cost`. -/
def get_cost_claimC1 {c m h f : ℕ} (l2 : ℝ) (yEnc output : Mat c m)
    (w1 : Mat h (f + 1)) (w2 : Mat c (h + 1)) : ℝ :=
  crossEntropyTerm yEnc output / m + l2Term l2 w1 w2

/-- The maximum of column `j` alone, as claim C2 describes the softmax shift.
Follows the claim's words ("each column's own maximum"), for comparison with
the source's global `matMax`. -/
def colMaxSpec {m n : ℕ} (v : Mat m n) (j : Fin n) : ℝ :=
  listMax0 ((List.finRange m).map fun i => v i j)

/-- The shifted array as claim C2 describes it: each column's own maximum
subtracted from that column before exponentiating.  Follows the claim's
words, for comparison with the source's `softmaxShift`. -/
def softmaxShiftPerColSpec {m n : ℕ} (v : Mat m n) : Mat m n :=
  fun i j => v i j - colMaxSpec v j

/-- Two-column input whose columns have different maxima (0 and 5). -/
def vC2 : Mat 1 2 := fun _ j => if j = 0 then 0 else 5

/-- The single column `[1000, 1000, 1000]` from claim C2. -/
def v1000 : Mat 3 1 := fun _ _ => 1000

/-- Concrete batch of one sample with one feature, value 1. -/
def XC3 : Mat 1 1 := fun _ _ => 1

/-- Weights sending the biased input `[1, 1]` to the negative value -1. -/
def w1C3 : Mat 1 2 := fun _ j => if j = 0 then 0 else -1

/-- Arbitrary hidden-to-output weights for the C3 counterexample. -/
def w2C3 : Mat 1 2 := fun _ _ => 0

/-- Replace the bias column (column 0) of a weight matrix by `cvec`. -/
def replaceCol0 {p q : ℕ} (w : Mat p (q + 1)) (cvec : Fin p → ℝ) : Mat p (q + 1) :=
  fun i j => if j = 0 then cvec i else w i j

/-- The matrix with the bias column zeroed and all other columns kept. -/
def nonbias {p q : ℕ} (w : Mat p (q + 1)) : Mat p (q + 1) :=
  fun i j => if j = 0 then 0 else w i j

/-- The one-hot label matrix for labels `[0, 0]` with a single class: with
C = 1, each of the two columns is `[1]` — its single 1 sits at row 0, the
label.  A genuine in-domain `y_enc` for the C1 counterexample. -/
def yOneHotC1 : Mat 1 2 := fun _ _ => 1

/-- All-one `1 × 2` output matrix for the C1 counterexample (`log 1 = 0`). -/
def outC1 : Mat 1 2 := fun _ _ => 1

/-- Concrete matrices used by witnesses and counterexamples. -/
def zeroMat11 : Mat 1 1 := fun _ _ => 0

/-- Concrete zero weight matrix of shape `1 × 2`. -/
def zeroMat12 : Mat 1 2 := fun _ _ => 0

/-- Concrete all-ones `1 × 2` matrix (used as weights in the C1
counterexample; its single non-bias entry squares to 1). -/
def onesMat12 : Mat 1 2 := fun _ _ => 1

/-! ## Theorems -/

/-- C1 counterexample: `get_cost` does NOT leave the L2 term un-averaged,
already on a genuine one-hot label matrix.  `yOneHotC1` is the one-hot
encoding of labels `[0, 0]` with one class — the first conjunct states that
each column has its 1 exactly at the label's row — and the outputs are all
one (`log 1 = 0`), so the cross-entropy term is 0.  With `l2 = 2` and
all-one weights the source returns `(0 + 2) / 2 = 1`, while the claim's
formula gives `0 / 2 + 2 = 2`. -/
theorem get_cost_claimC1_counterexample :
    (∀ (r : Fin 1) (col : Fin 2),
      yOneHotC1 r col = if (![0, 0] : Fin 2 → ℕ) col = (r : ℕ) then 1 else 0) ∧
    get_cost 2 yOneHotC1 outC1 onesMat12 onesMat12
      ≠ get_cost_claimC1 2 yOneHotC1 outC1 onesMat12 onesMat12 := by
  constructor
  · intro r col
    have hr : (r : ℕ) = 0 := by omega
    fin_cases col <;> simp [yOneHotC1, hr]
  · norm_num [get_cost, get_cost_claimC1, crossEntropyTerm, l2Term, yOneHotC1, outC1,
      onesMat12, Real.log_one]

/-- C1 (amended): `get_cost` returns the cross-entropy term plus the L2 term,
with the WHOLE sum divided by the number M of samples — the L2 term is
averaged together with the cross-entropy term, not added raw. -/
theorem get_cost_averages_both_terms {c m h f : ℕ} (l2 : ℝ) (yEnc output : Mat c m)
    (w1 : Mat h (f + 1)) (w2 : Mat c (h + 1)) :
    get_cost l2 yEnc output w1 w2
      = crossEntropyTerm yEnc output / m + l2Term l2 w1 w2 / m := by
  unfold get_cost
  ring

/-- C3 counterexample: the `z2` returned by `forward` is NOT the raw linear
map `w1 · a1ᵀ`.  On a single sample with feature value 1 and weights
`[0, -1]`, the raw hidden pre-activation is -1, but the returned `z2` entry
is 0, because `self.relu(z2)` rectified the array in place. -/
theorem forward_z2_counterexample :
    (forward XC3 w1C3 w2C3).2.1 0 0 ≠ matMul w1C3 (matT (addBiasCol XC3)) 0 0 := by
  have hraw : matMul w1C3 (matT (addBiasCol XC3)) 0 0 = -1 := by
    simp [matMul, matT, addBiasCol, w1C3, XC3, Fin.sum_univ_succ, Fin.succ_ne_zero]
  have hret : (forward XC3 w1C3 w2C3).2.1 0 0 = 0 := by
    show relu (matMul w1C3 (matT (addBiasCol XC3))) 0 0 = 0
    rw [relu]
    rw [hraw]
    norm_num
  rw [hret, hraw]
  norm_num

/-- C3 (amended): `forward` returns five tensors as pure values — the
input-with-bias, the RECTIFIED hidden pre-activation (relu applied to
`w1 · a1ᵀ`, since the source's relu clamps the `z2` array in place), the
hidden-activation-with-bias, the output pre-activation, and the output
distribution. -/
theorem forward_returns_rectified_z2 {m f h c : ℕ} (X : Mat m f)
    (w1 : Mat h (f + 1)) (w2 : Mat c (h + 1)) :
    (forward X w1 w2).1 = addBiasCol X ∧
    (forward X w1 w2).2.1 = relu (matMul w1 (matT (addBiasCol X))) ∧
    (forward X w1 w2).2.2.1 = addBiasRow (relu (matMul w1 (matT (addBiasCol X)))) ∧
    (forward X w1 w2).2.2.2.1
      = matMul w2 (addBiasRow (relu (matMul w1 (matT (addBiasCol X))))) ∧
    (forward X w1 w2).2.2.2.2
      = softmax (matMul w2 (addBiasRow (relu (matMul w1 (matT (addBiasCol X)))))) :=
  ⟨rfl, rfl, rfl, rfl, rfl⟩

/-- C4 counterexample: with the unsupported activation name "swish",
construction leaves the activation attribute unset (`none`) — but a
subsequent forward pass does NOT fail: it returns `Except.ok` of the relu
network's outputs, because `forward` never reads the activation attribute. -/
theorem invalid_activation_forward_ok :
    initActivation "swish" = none ∧
    instanceForward (m := 1) (f := 1) (h := 1) (c := 1) (initActivation "swish")
        zeroMat11 zeroMat12 zeroMat12
      = Except.ok (forward zeroMat11 zeroMat12 zeroMat12) := by
  exact ⟨by decide, rfl⟩

/-- C4 (amended): an activation name outside {relu, tanh, sigmoid} makes
construction complete non-fatally with the activation attribute left unset,
and every subsequent forward pass on that instance nevertheless SUCCEEDS,
since the source's `forward` hardcodes relu and never reads
`self.activation`. -/
theorem invalid_activation_nonfatal (name : String)
    (hname : name ∉ supported_activations) :
    initActivation name = none ∧
    ∀ (m f h c : ℕ) (X : Mat m f) (w1 : Mat h (f + 1)) (w2 : Mat c (h + 1)),
      instanceForward (initActivation name) X w1 w2 = Except.ok (forward X w1 w2) := by
  exact ⟨by simp [initActivation, hname], fun _ _ _ _ _ _ _ => rfl⟩

/-- C4 witness: the amended theorem instantiated at the concrete name
"swish". -/
theorem invalid_activation_nonfatal_witness :
    "swish" ∉ supported_activations ∧
    (initActivation "swish" = none ∧
      ∀ (m f h c : ℕ) (X : Mat m f) (w1 : Mat h (f + 1)) (w2 : Mat c (h + 1)),
        instanceForward (initActivation "swish") X w1 w2 = Except.ok (forward X w1 w2)) :=
  ⟨by decide, invalid_activation_nonfatal "swish" (by decide)⟩

/-- C10: the relu derivative mask is unchanged by rectification —
`relu(relu(z), deriv=True) = relu(z, deriv=True)` elementwise — and hence
`backprop` computes the same gradients whether it is handed the rectified
`z2` that `forward` actually returns or the raw pre-activation. -/
theorem reluDeriv_stable_under_rectification {m f h c : ℕ} (l2 : ℝ)
    (a1 : Mat m (f + 1)) (a2 : Mat (h + 1) m) (a3 : Mat c m) (z2 : Mat h m)
    (yEnc : Mat c m) (w1 : Mat h (f + 1)) (w2 : Mat c (h + 1)) :
    reluDeriv (relu z2) = reluDeriv z2 ∧
    backprop l2 a1 a2 a3 (relu z2) yEnc w1 w2 = backprop l2 a1 a2 a3 z2 yEnc w1 w2 := by
  have key : ∀ {p q : ℕ} (z : Mat p q), reluDeriv (relu z) = reluDeriv z := by
    intro p q z
    funext i j
    by_cases hz : z i j < 0
    · simp [relu, reluDeriv, hz, hz.le]
    · simp [relu, reluDeriv, hz]
  refine ⟨key z2, ?_⟩
  have hb : reluDeriv (addBiasRow (relu z2)) = reluDeriv (addBiasRow z2) := by
    funext i j
    refine Fin.cases ?_ (fun i' => ?_) i
    · norm_num [addBiasRow, reluDeriv]
    · have hk := congrFun (congrFun (key z2) i') j
      simpa [addBiasRow, reluDeriv, relu] using hk
  simp only [backprop, hb]

/-- C9: bias columns (column 0) of both weight matrices are excluded from
every use of the l2 coefficient — `get_cost` is unchanged when the bias
columns are replaced arbitrarily, and the gradients of `backprop` with
coefficient `l2` equal the unregularized gradients plus `l2` times the
weights with bias column zeroed, so the bias-column gradients carry no
regularization contribution. -/
theorem bias_columns_unregularized {m f h c : ℕ} (l2 : ℝ) (yEnc output : Mat c m)
    (a1 : Mat m (f + 1)) (a2 : Mat (h + 1) m) (a3 : Mat c m) (z2 : Mat h m)
    (w1 : Mat h (f + 1)) (w2 : Mat c (h + 1)) (c1 : Fin h → ℝ) (c2 : Fin c → ℝ) :
    get_cost l2 yEnc output (replaceCol0 w1 c1) (replaceCol0 w2 c2)
      = get_cost l2 yEnc output w1 w2 ∧
    (backprop l2 a1 a2 a3 z2 yEnc w1 w2).1
      = (backprop 0 a1 a2 a3 z2 yEnc w1 w2).1 + l2 • nonbias w1 ∧
    (backprop l2 a1 a2 a3 z2 yEnc w1 w2).2
      = (backprop 0 a1 a2 a3 z2 yEnc w1 w2).2 + l2 • nonbias w2 := by
  refine ⟨?_, ?_, ?_⟩
  · simp [get_cost, l2Term, replaceCol0, Fin.succ_ne_zero]
  · funext i j
    refine Fin.cases ?_ (fun j' => ?_) j
    · simp [backprop, nonbias]
    · simp [backprop, nonbias, Fin.succ_ne_zero]
  · funext i j
    refine Fin.cases ?_ (fun j' => ?_) j
    · simp [backprop, nonbias]
    · simp [backprop, nonbias, Fin.succ_ne_zero]

/-- C6 counterexample: with decay_rate `1 ≥ 0` but initial learning rate
`-1`, the learning rate in effect during epoch 1 is `-1/2`, which is
GREATER than the `-1` in effect during epoch 0 — the sequence is not
monotonically non-increasing for every initial rate. -/
theorem lr_decay_counterexample :
    0 ≤ (1 : ℝ) ∧ ¬ lrAt (-1) 1 1 ≤ lrAt (-1) 1 0 := by
  refine ⟨by norm_num, ?_⟩
  norm_num [lrAt]

/-- C6 (amended): at the start of each 0-based epoch `i`, `fit` divides the
stored learning rate by `(1 + decay_rate * i)` and never resets it, so the
rate in effect during epoch `i` is the initial rate divided by the product
of `(1 + decay_rate * k)` for `k = 0..i` — for EVERY initial rate; provided
additionally that the initial learning rate is nonnegative, the sequence is
monotonically non-increasing across epochs. -/
theorem lr_decay_product (lr0 dr : ℝ) (i : ℕ) (hdr : 0 ≤ dr) :
    lrAt lr0 dr i = lr0 / ∏ k ∈ Finset.range (i + 1), (1 + dr * k) ∧
    (0 ≤ lr0 → lrAt lr0 dr (i + 1) ≤ lrAt lr0 dr i) := by
  have formula : ∀ n : ℕ, lrAt lr0 dr n = lr0 / ∏ k ∈ Finset.range (n + 1), (1 + dr * k) := by
    intro n
    induction n with
    | zero => simp [lrAt]
    | succ n ih =>
      rw [lrAt, ih, div_div, ← Finset.prod_range_succ]
  refine ⟨formula i, fun hlr => ?_⟩
  have nonneg : ∀ n : ℕ, 0 ≤ lrAt lr0 dr n := by
    intro n
    induction n with
    | zero => simpa [lrAt] using hlr
    | succ n ih =>
      rw [lrAt]
      have hden : (0 : ℝ) ≤ dr * ((n : ℝ) + 1) :=
        mul_nonneg hdr (by positivity)
      exact div_nonneg ih (by push_cast; linarith)
  rw [lrAt]
  have hden : (0 : ℝ) ≤ dr * ((i : ℝ) + 1) := mul_nonneg hdr (by positivity)
  exact div_le_self (nonneg i) (by push_cast; linarith)

/-- C6 witness: the amended theorem instantiated at initial rate 1 and
decay rate 1, epoch 0, with both the decay-rate hypothesis and the
monotonicity conjunct's nonnegative-initial-rate hypothesis discharged. -/
theorem lr_decay_product_witness :
    0 ≤ (1 : ℝ) ∧
    lrAt 1 1 0 = 1 / ∏ k ∈ Finset.range (0 + 1), (1 + 1 * (k : ℝ)) ∧
    lrAt 1 1 (0 + 1) ≤ lrAt 1 1 0 :=
  ⟨by norm_num, (lr_decay_product 1 1 0 (by norm_num)).1,
    (lr_decay_product 1 1 0 (by norm_num)).2 (by norm_num)⟩

/-- C2 counterexample: the shift `softmax` applies before exponentiating is
NOT each column's own maximum.  On the `1 × 2` input `[[0, 5]]`, the global
maximum 5 is subtracted everywhere, so the shifted entry of column 0 is -5,
whereas subtracting column 0's own maximum would give 0. -/
theorem softmax_shift_counterexample :
    softmaxShift vC2 0 0 ≠ softmaxShiftPerColSpec vC2 0 0 := by
  have h1 : entriesList vC2 = [0, 5] := rfl
  have h2 : matMax vC2 = 5 := by
    rw [matMax, h1]
    simp [listMax0]
  have h3 : colMaxSpec vC2 0 = 0 := rfl
  rw [softmaxShift, softmaxShiftPerColSpec]
  rw [h2, h3]
  norm_num [vC2]

/-- C2 (amended): `forward` computes `a3` by applying `softmax` to `z3`,
where the shift subtracted before exponentiating is the GLOBAL maximum of
the whole matrix (the same scalar for every column), not each column's own
maximum; for every input the resulting columns each sum to 1 with all
entries in `[0, 1]`, and softmax of the single column `[1000, 1000, 1000]`
is `[1/3, 1/3, 1/3]`. -/
theorem softmax_global_shift_normalized {c m : ℕ} (hc : 0 < c) (v : Mat c m) (j : Fin m) :
    (∀ i, softmaxShift v i j = v i j - matMax v) ∧
    (∑ i, softmax v i j = 1) ∧
    (∀ i, 0 ≤ softmax v i j ∧ softmax v i j ≤ 1) ∧
    (∀ (m0 f0 h0 : ℕ) (X : Mat m0 f0) (w1 : Mat h0 (f0 + 1)) (w2 : Mat c (h0 + 1)),
      (forward X w1 w2).2.2.2.2 = softmax (forward X w1 w2).2.2.2.1) ∧
    (∀ i : Fin 3, softmax v1000 i 0 = 1 / 3) := by
  have hD : 0 < ∑ k, Real.exp (softmaxShift v k j) :=
    Finset.sum_pos (fun k _ => Real.exp_pos _) ⟨⟨0, hc⟩, Finset.mem_univ _⟩
  refine ⟨?_, ?_, ?_, ?_, ?_⟩
  · intro i
    rw [softmaxShift, sub_eq_add_neg]
  · simp only [softmax]
    rw [← Finset.sum_div, div_self hD.ne']
  · intro i
    constructor
    · exact div_nonneg (Real.exp_pos _).le hD.le
    · simp only [softmax]
      rw [div_le_one hD]
      exact Finset.single_le_sum (fun k _ => (Real.exp_pos (softmaxShift v k j)).le)
        (Finset.mem_univ i)
  · intro m0 f0 h0 X w1 w2
    rfl
  · intro i
    have h1 : entriesList v1000 = [1000, 1000, 1000] := rfl
    have hmax : matMax v1000 = 1000 := by
      rw [matMax, h1]
      simp [listMax0]
    simp [softmax, softmaxShift, hmax, v1000, Fin.sum_univ_three]

/-- C2 witness: the amended theorem instantiated at the `1 × 1` zero
matrix. -/
theorem softmax_global_shift_normalized_witness :
    0 < 1 ∧
    ((∀ i, softmaxShift zeroMat11 i 0 = zeroMat11 i 0 - matMax zeroMat11) ∧
      (∑ i, softmax zeroMat11 i 0 = 1) ∧
      (∀ i, 0 ≤ softmax zeroMat11 i 0 ∧ softmax zeroMat11 i 0 ≤ 1) ∧
      (∀ (m0 f0 h0 : ℕ) (X : Mat m0 f0) (w1 : Mat h0 (f0 + 1)) (w2 : Mat 1 (h0 + 1)),
        (forward X w1 w2).2.2.2.2 = softmax (forward X w1 w2).2.2.2.1) ∧
      (∀ i : Fin 3, softmax v1000 i 0 = 1 / 3)) :=
  ⟨by decide, softmax_global_shift_normalized (by decide) zeroMat11 0⟩

/-- Invariant of the `encode_labels` loop: when every label written by the
processed index list is in range, the fold writes a 1 at `(y col, col)` for
each processed column `col` and leaves other entries at their initial
value. -/
theorem encode_foldlM_some {n c : ℕ} (y : Fin n → ℕ) (L : List (Fin n)) :
    ∀ M0 : Mat c n, (∀ i ∈ L, y i < c) →
      List.foldlM (encodeStep y c) M0 L
        = some fun (r : Fin c) (col : Fin n) =>
            if col ∈ L ∧ y col = (r : ℕ) then (1 : ℝ) else M0 r col := by
  induction L with
  | nil =>
    intro M0 _
    simp
  | cons x xs ih =>
    intro M0 hL
    have hx : y x < c := hL x (List.mem_cons_self x xs)
    have hxs : ∀ i ∈ xs, y i < c := fun i hi => hL i (List.mem_cons_of_mem x hi)
    have hstep : List.foldlM (encodeStep y c) M0 (x :: xs)
        = List.foldlM (encodeStep y c) (setEntry M0 ⟨y x, hx⟩ x 1) xs := by
      simp [List.foldlM_cons, encodeStep, hx]
    rw [hstep, ih _ hxs]
    refine congrArg some (funext fun r => funext fun col => ?_)
    by_cases h1 : col ∈ xs ∧ y col = (r : ℕ)
    · rw [if_pos h1, if_pos ⟨List.mem_cons_of_mem x h1.1, h1.2⟩]
    · rw [if_neg h1, setEntry]
      by_cases h2 : r = ⟨y x, hx⟩ ∧ col = x
      · have hr : (r : ℕ) = y x := by rw [h2.1]
        rw [if_pos h2,
          if_pos ⟨by rw [h2.2]; exact List.mem_cons_self x xs, by rw [h2.2, hr]⟩]
      · rw [if_neg h2, if_neg ?_]
        intro hcond
        rcases hcond with ⟨hmem, hy⟩
        rcases List.mem_cons.mp hmem with hcx | hcxs
        · exact h2 ⟨Fin.ext (by rw [← hy, hcx]), hcx⟩
        · exact h1 ⟨hcxs, hy⟩

/-- The `encode_labels` loop fails (numpy IndexError) as soon as it reaches
an out-of-range label. -/
theorem encode_foldlM_none {n c : ℕ} (y : Fin n → ℕ) (L : List (Fin n)) :
    ∀ M0 : Mat c n, (∃ i ∈ L, c ≤ y i) →
      List.foldlM (encodeStep y c) M0 L = none := by
  induction L with
  | nil =>
    intro M0 hbad
    rcases hbad with ⟨i, hi, _⟩
    simp at hi
  | cons x xs ih =>
    intro M0 hbad
    by_cases hx : y x < c
    · have hex : ∃ i ∈ xs, c ≤ y i := by
        rcases hbad with ⟨i, hi, hci⟩
        rcases List.mem_cons.mp hi with rfl | hixs
        · exact absurd hci (not_le.mpr hx)
        · exact ⟨i, hixs, hci⟩
      have hstep : List.foldlM (encodeStep y c) M0 (x :: xs)
          = List.foldlM (encodeStep y c) (setEntry M0 ⟨y x, hx⟩ x 1) xs := by
        simp [List.foldlM_cons, encodeStep, hx]
      rw [hstep]
      exact ih _ hex
    · simp [List.foldlM_cons, encodeStep, hx]

/-- C8: for an integer label vector whose entries all lie in `[0, C)`,
`encode_labels` returns the `C × N` matrix whose column `i` has a 1 at row
`y i` and 0 everywhere else; a label outside `[0, C)` makes it fail (a
numpy IndexError, embedded as `none`). -/
theorem encode_labels_onehot {n : ℕ} (y : Fin n → ℕ) (c : ℕ) :
    ((∀ i, y i < c) →
      encode_labels y c
        = some fun (r : Fin c) (col : Fin n) =>
            if y col = (r : ℕ) then (1 : ℝ) else 0) ∧
    (∀ i : Fin n, c ≤ y i → encode_labels y c = none) := by
  constructor
  · intro h
    rw [encode_labels, encode_foldlM_some y (List.finRange n) _ (fun i _ => h i)]
    refine congrArg some (funext fun r => funext fun col => ?_)
    simp [List.mem_finRange]
  · intro i hi
    rw [encode_labels]
    exact encode_foldlM_none y (List.finRange n) _ ⟨i, List.mem_finRange i, hi⟩

/-- C8 witness: labels `[0, 2, 1]` with 3 classes are all in range and
encode to the columns `[1,0,0]`, `[0,0,1]`, `[0,1,0]` (as the one-hot
indicator matrix). -/
theorem encode_labels_onehot_witness :
    (∀ i : Fin 3, (![0, 2, 1] : Fin 3 → ℕ) i < 3) ∧
    encode_labels (![0, 2, 1] : Fin 3 → ℕ) 3
      = some fun (r : Fin 3) (col : Fin 3) =>
          if (![0, 2, 1] : Fin 3 → ℕ) col = (r : ℕ) then (1 : ℝ) else 0 :=
  ⟨by decide, (encode_labels_onehot ![0, 2, 1] 3).1 (by decide)⟩

/-- C7: on any input batch and label vector of matching nonzero length,
`accuracy` equals `100 *` the fraction of positions where `predict` agrees
with the label — exactly — and therefore lies in `[0, 100]`. -/
theorem accuracy_matches_prediction_mean {m f h c : ℕ} [NeZero c] (hm : 0 < m)
    (X : Mat m f) (y : Fin m → ℕ) (w1 : Mat h (f + 1)) (w2 : Mat c (h + 1)) :
    accuracy X y w1 w2 = 100 * (matchCount (predict X w1 w2) y : ℝ) / m ∧
    0 ≤ accuracy X y w1 w2 ∧ accuracy X y w1 w2 ≤ 100 := by
  have hsplit : matchCount (predict X w1 w2) y
      + (Finset.univ.filter fun i => ¬(predict X w1 w2 i : ℕ) = y i).card = m := by
    rw [matchCount, Finset.filter_card_add_filter_neg_card_eq_card]
    simp
  have hm' : ((m : ℕ) : ℝ) ≠ 0 := Nat.cast_ne_zero.mpr hm.ne'
  have key : accuracy X y w1 w2 = 100 * (matchCount (predict X w1 w2) y : ℝ) / m := by
    rw [accuracy]
    have hc : ((Finset.univ.filter fun i => (predict X w1 w2 i : ℕ) ≠ y i).card : ℝ)
        = (m : ℝ) - (matchCount (predict X w1 w2) y : ℝ) := by
      have hcast := congrArg (fun t : ℕ => (t : ℝ)) hsplit
      push_cast at hcast
      linarith
    rw [hc]
    field_simp
    ring
  have hle : (matchCount (predict X w1 w2) y : ℝ) ≤ (m : ℝ) := by
    have hnat : matchCount (predict X w1 w2) y ≤ m := by
      rw [matchCount]
      calc (Finset.univ.filter fun i => (predict X w1 w2 i : ℕ) = y i).card
          ≤ Finset.univ.card := Finset.card_filter_le _ _
        _ = m := by simp
    exact_mod_cast hnat
  have hmpos : (0 : ℝ) < m := by exact_mod_cast hm
  refine ⟨key, ?_, ?_⟩
  · rw [key]
    positivity
  · rw [key, div_le_iff₀ hmpos]
    nlinarith [hle]

/-- C7 witness: the theorem instantiated on a batch of one sample with the
zero-weight one-class network. -/
theorem accuracy_matches_prediction_mean_witness :
    0 < 1 ∧
    (accuracy zeroMat11 (fun _ => 0) zeroMat12 zeroMat12
        = 100 * (matchCount (predict zeroMat11 zeroMat12 zeroMat12) (fun _ => 0) : ℝ)
            / ((1 : ℕ) : ℝ) ∧
      0 ≤ accuracy zeroMat11 (fun _ => 0) zeroMat12 zeroMat12 ∧
      accuracy zeroMat11 (fun _ => 0) zeroMat12 zeroMat12 ≤ 100) :=
  ⟨by decide, accuracy_matches_prediction_mean (by decide) zeroMat11 (fun _ => 0) zeroMat12 zeroMat12⟩

/-- Unfolding one minibatch step of the epoch loop: the state after `n + 1`
steps is `fitBatchStep` applied to the state after `n` steps and batch `n`. -/
theorem stateAfter_succ {m f h c : ℕ} (l2 lr : ℝ) (bs : List (Mat m f × Mat c m))
    (w1 : Mat h (f + 1)) (w2 : Mat c (h + 1)) (n : ℕ) (hn : n < bs.length) :
    stateAfter l2 lr bs w1 w2 (n + 1)
      = fitBatchStep l2 lr (bs.get ⟨n, hn⟩).1 (bs.get ⟨n, hn⟩).2
          (stateAfter l2 lr bs w1 w2 n) := by
  rw [stateAfter, stateAfter, runBatches, runBatches, List.take_succ,
    List.getElem?_eq_getElem hn, Option.toList_some, List.foldl_append,
    List.foldl_cons, List.foldl_nil]
  rfl

/-- C5: within an epoch of `fit`, every minibatch update subtracts
`learning_rate * grad + previous_step_delta` from each weight matrix, where
`previous_step_delta` is exactly the `learning_rate * grad` saved from the
previous minibatch step — zero matrices before the very first step — and
the saved delta is the raw `learning_rate * grad` with no separate momentum
coefficient applied anywhere. -/
theorem fit_minibatch_update {m f h c : ℕ} (l2 lr : ℝ)
    (bs : List (Mat m f × Mat c m)) (w1 : Mat h (f + 1)) (w2 : Mat c (h + 1))
    (n : ℕ) (hn : n < bs.length) :
    (stateAfter l2 lr bs w1 w2 0).prev1 = 0 ∧
    (stateAfter l2 lr bs w1 w2 0).prev2 = 0 ∧
    (stateAfter l2 lr bs w1 w2 (n + 1)).w1
      = (stateAfter l2 lr bs w1 w2 n).w1
        - (lr • (gradsOf l2 (bs.get ⟨n, hn⟩).1 (bs.get ⟨n, hn⟩).2
              (stateAfter l2 lr bs w1 w2 n).w1 (stateAfter l2 lr bs w1 w2 n).w2).1
           + (stateAfter l2 lr bs w1 w2 n).prev1) ∧
    (stateAfter l2 lr bs w1 w2 (n + 1)).w2
      = (stateAfter l2 lr bs w1 w2 n).w2
        - (lr • (gradsOf l2 (bs.get ⟨n, hn⟩).1 (bs.get ⟨n, hn⟩).2
              (stateAfter l2 lr bs w1 w2 n).w1 (stateAfter l2 lr bs w1 w2 n).w2).2
           + (stateAfter l2 lr bs w1 w2 n).prev2) ∧
    (stateAfter l2 lr bs w1 w2 (n + 1)).prev1
      = lr • (gradsOf l2 (bs.get ⟨n, hn⟩).1 (bs.get ⟨n, hn⟩).2
          (stateAfter l2 lr bs w1 w2 n).w1 (stateAfter l2 lr bs w1 w2 n).w2).1 ∧
    (stateAfter l2 lr bs w1 w2 (n + 1)).prev2
      = lr • (gradsOf l2 (bs.get ⟨n, hn⟩).1 (bs.get ⟨n, hn⟩).2
          (stateAfter l2 lr bs w1 w2 n).w1 (stateAfter l2 lr bs w1 w2 n).w2).2 := by
  rw [stateAfter_succ l2 lr bs w1 w2 n hn]
  exact ⟨rfl, rfl, rfl, rfl, rfl, rfl⟩

/-- C5 witness: the update rule instantiated on a single one-sample
minibatch with zero weights, unit learning rate, no regularization. -/
theorem fit_minibatch_update_witness :
    0 < ([(zeroMat11, zeroMat11)] : List (Mat 1 1 × Mat 1 1)).length ∧
    ((stateAfter 0 1 [(zeroMat11, zeroMat11)] zeroMat12 zeroMat12 0).prev1 = 0 ∧
      (stateAfter 0 1 [(zeroMat11, zeroMat11)] zeroMat12 zeroMat12 0).prev2 = 0 ∧
      (stateAfter 0 1 [(zeroMat11, zeroMat11)] zeroMat12 zeroMat12 1).w1
        = (stateAfter 0 1 [(zeroMat11, zeroMat11)] zeroMat12 zeroMat12 0).w1
          - (1 • (gradsOf 0 zeroMat11 zeroMat11
                (stateAfter 0 1 [(zeroMat11, zeroMat11)] zeroMat12 zeroMat12 0).w1
                (stateAfter 0 1 [(zeroMat11, zeroMat11)] zeroMat12 zeroMat12 0).w2).1
             + (stateAfter 0 1 [(zeroMat11, zeroMat11)] zeroMat12 zeroMat12 0).prev1) ∧
      (stateAfter 0 1 [(zeroMat11, zeroMat11)] zeroMat12 zeroMat12 1).w2
        = (stateAfter 0 1 [(zeroMat11, zeroMat11)] zeroMat12 zeroMat12 0).w2
          - (1 • (gradsOf 0 zeroMat11 zeroMat11
                (stateAfter 0 1 [(zeroMat11, zeroMat11)] zeroMat12 zeroMat12 0).w1
                (stateAfter 0 1 [(zeroMat11, zeroMat11)] zeroMat12 zeroMat12 0).w2).2
             + (stateAfter 0 1 [(zeroMat11, zeroMat11)] zeroMat12 zeroMat12 0).prev2) ∧
      (stateAfter 0 1 [(zeroMat11, zeroMat11)] zeroMat12 zeroMat12 1).prev1
        = 1 • (gradsOf 0 zeroMat11 zeroMat11
            (stateAfter 0 1 [(zeroMat11, zeroMat11)] zeroMat12 zeroMat12 0).w1
            (stateAfter 0 1 [(zeroMat11, zeroMat11)] zeroMat12 zeroMat12 0).w2).1 ∧
      (stateAfter 0 1 [(zeroMat11, zeroMat11)] zeroMat12 zeroMat12 1).prev2
        = 1 • (gradsOf 0 zeroMat11 zeroMat11
            (stateAfter 0 1 [(zeroMat11, zeroMat11)] zeroMat12 zeroMat12 0).w1
            (stateAfter 0 1 [(zeroMat11, zeroMat11)] zeroMat12 zeroMat12 0).w2).2) :=
  ⟨by decide, by
    simpa using fit_minibatch_update 0 1 [(zeroMat11, zeroMat11)] zeroMat12 zeroMat12 0 (by decide)⟩

end Mnist
